import Mathlib

/-!
# Verification of the standalone prompt-tsx rendering library

This file gives a shallow embedding, in Lean 4, of the standalone parts of the
`vscode-prompt-tsx` repository, and proves (or refutes) the frozen claims about it.

Embedded source files:
* `src/base/standalone-types.ts` — `CancellationTokenSource`, `LanguageModelChatMessage(Role)`;
* `src/base/output/mode.ts` — `OutputMode`;
* `src/base/output/standalone.ts` — `toStandaloneChatMessage(s)`;
* `src/base/tokenizer/standalone-tokenizer.ts` — `SimpleTokenizer`, `StandaloneTokenizer`,
  `VSCodeTokenizer`;
* `examples/standalone-file-contents.tsx` — `FileContext.getExpandedFiles`,
  `FileContextTracker`;
* the render entry point `renderPrompt` (whose implementation is not among the
  available sources; it is modelled from the specification, see below).

TypeScript numbers are modelled by `Nat`/`Int` as appropriate (all quantities involved
are small integers: enum discriminants, token counts, line indices). TypeScript strings
are modelled by Lean `String`, with character-level operations on `String.data`
(`List Char`).
-/

set_option autoImplicit false

namespace PromptTsx

/-! ## Output modes (`src/base/output/mode.ts`)

`export enum OutputMode { Raw = 1, OpenAI = 1 << 1, VSCode = 1 << 2 }`.
TypeScript numeric enums are open (any number inhabits the type at runtime), so the
enum is embedded as `Nat` together with named constants. -/

/-- TypeScript `OutputMode` values are numbers; the enum is open at runtime. -/
abbrev OutputMode : Type := Nat

/-- `OutputMode.Raw = 1`. -/
def OutputMode.Raw : OutputMode := 1

/-- `OutputMode.OpenAI = 1 << 1`. -/
def OutputMode.OpenAI : OutputMode := 2

/-- `OutputMode.VSCode = 1 << 2`. -/
def OutputMode.VSCode : OutputMode := 4

/-! ## Chat message roles (`src/base/standalone-types.ts`)

`export enum LanguageModelChatMessageRole { User = 1, Assistant = 2, System = 3 }`.
Again an open numeric enum, embedded as `Nat` plus named constants. -/

/-- TypeScript `LanguageModelChatMessageRole` values are numbers. -/
abbrev LanguageModelChatMessageRole : Type := Nat

/-- `LanguageModelChatMessageRole.User = 1`. -/
def LanguageModelChatMessageRole.User : LanguageModelChatMessageRole := 1

/-- `LanguageModelChatMessageRole.Assistant = 2`. -/
def LanguageModelChatMessageRole.Assistant : LanguageModelChatMessageRole := 2

/-- `LanguageModelChatMessageRole.System = 3`. -/
def LanguageModelChatMessageRole.System : LanguageModelChatMessageRole := 3

/-- `LanguageModelChatMessage` from `src/base/standalone-types.ts`:
`{ role: LanguageModelChatMessageRole; content: string; name?: string }`. -/
structure LanguageModelChatMessage where
  role : LanguageModelChatMessageRole
  content : String
  name : Option String := none
deriving DecidableEq, Repr

/-! ## Raw message types (`src/base/output/rawTypes.ts`)

The file `rawTypes.ts` itself is not among the available sources; these declarations
are reconstructed from their uses in `output/standalone.ts` and the tests
(`standalone.test.tsx` notes `Raw.ChatCompletionContentPartKind.Text = 1`).
The conversion code only ever distinguishes text parts from non-text parts, and the
roles `System | User | Assistant | Tool` from anything else (its `default` branch),
so non-text parts are collapsed into one constructor and unknown roles into one. -/

namespace Raw

/-- A `Raw.ChatCompletionContentPart`: either a text part carrying a string,
or some other (non-text) kind of part. -/
inductive ChatCompletionContentPart where
  | text (s : String)
  | nonText
deriving DecidableEq, Repr

/-- A `Raw.ChatRole`. TypeScript enums are open, so an `unknown` constructor stands
for every numeric value that is none of the four declared roles (the `default`
branch of `toStandaloneChatMessage`). -/
inductive ChatRole where
  | System
  | User
  | Assistant
  | Tool
  | unknown (n : Nat)
deriving DecidableEq, Repr

/-- A `Raw.ChatMessage` as consumed by `toStandaloneChatMessage`: its role, its
content parts, and an optional name. -/
structure ChatMessage where
  role : ChatRole
  content : List ChatCompletionContentPart
  name : Option String := none
deriving DecidableEq, Repr

end Raw

/-! ## Message conversion (`src/base/output/standalone.ts`) -/

/-- `onlyStringContent`: keep the text parts, take their text, join with `''`. -/
def onlyStringContent (content : List Raw.ChatCompletionContentPart) : String :=
  String.join (content.filterMap fun p =>
    match p with
    | .text s => some s
    | .nonText => none)

/-- `toStandaloneChatMessage`: convert one raw chat message to a standalone
`LanguageModelChatMessage`, or `undefined` (here `none`) for unknown roles.
Tool messages become user messages with a `"Tool result: "` marker. -/
def toStandaloneChatMessage (m : Raw.ChatMessage) : Option LanguageModelChatMessage :=
  match m.role with
  | .Assistant => some
      { role := LanguageModelChatMessageRole.Assistant
        content := onlyStringContent m.content
        name := m.name }
  | .User => some
      { role := LanguageModelChatMessageRole.User
        content := onlyStringContent m.content
        name := m.name }
  | .System => some
      { role := LanguageModelChatMessageRole.System
        content := onlyStringContent m.content
        name := m.name }
  | .Tool => some
      { role := LanguageModelChatMessageRole.User
        content := "Tool result: " ++ onlyStringContent m.content
        name := m.name }
  | .unknown _ => none

/-- `toStandaloneChatMessages`: `messages.map(toStandaloneChatMessage).filter(r => !!r)`. -/
def toStandaloneChatMessages (messages : List Raw.ChatMessage) :
    List LanguageModelChatMessage :=
  (messages.map toStandaloneChatMessage).filterMap id

/-! ## Tokenizer construction (`src/base/tokenizer/standalone-tokenizer.ts`)

The `StandaloneTokenizer` and `VSCodeTokenizer` constructors take a `countTokens`
callback and a `mode`, and throw unless `mode === OutputMode.VSCode`; the `mode`
field of the instance is the constant `OutputMode.VSCode`. The callback is modelled
as a pure function `String → Nat` (its message overload is irrelevant to the claims
about construction). Construction is embedded as `Except String`, mirroring `throw`. -/

/-- A constructed `StandaloneTokenizer` instance: its `mode` field and its
`countTokens` callback. -/
structure StandaloneTokenizer where
  mode : OutputMode
  countTokens : String → Nat

/-- The `StandaloneTokenizer` constructor: throws unless `mode === OutputMode.VSCode`;
the instance's `mode` field is initialized to `OutputMode.VSCode`. -/
def StandaloneTokenizer.make (countTokens : String → Nat) (mode : OutputMode) :
    Except String StandaloneTokenizer :=
  if mode = OutputMode.VSCode then
    .ok { mode := OutputMode.VSCode, countTokens := countTokens }
  else
    .error "`mode` must be set to vscode when using LanguageModelChat as the tokenizer"

/-- A constructed `VSCodeTokenizer` instance (same shape as `StandaloneTokenizer`). -/
structure VSCodeTokenizer where
  mode : OutputMode
  countTokens : String → Nat

/-- The `VSCodeTokenizer` constructor: throws unless `mode === OutputMode.VSCode`. -/
def VSCodeTokenizer.make (countTokens : String → Nat) (mode : OutputMode) :
    Except String VSCodeTokenizer :=
  if mode = OutputMode.VSCode then
    .ok { mode := OutputMode.VSCode, countTokens := countTokens }
  else
    .error "`mode` must be set to vscode when using vscode.LanguageModelChat as the tokenizer"

/-! ## `SimpleTokenizer` (`src/base/tokenizer/standalone-tokenizer.ts`)

`estimateTokenCount` computes `Math.max(text.trim().split(/\s+/).length,
Math.ceil(text.length / 4))` for non-empty `text`, and `0` for empty text.
JavaScript string operations are embedded character-by-character on `String.data`. -/

/-- JavaScript's `\s` character class (the whitespace characters relevant here):
space, tab, LF, VT, FF, CR, NBSP, plus the Unicode space separators used by
JavaScript's `\s` and `String.prototype.trim`. -/
def isWs (c : Char) : Bool :=
  c = ' ' ∨ c = '\t' ∨ c = '\n' ∨ c = '\x0b' ∨ c = '\x0c' ∨ c = '\r' ∨
  c = ' ' ∨ c = ' ' ∨ (' ' ≤ c ∧ c ≤ ' ') ∨
  c = ' ' ∨ c = ' ' ∨ c = ' ' ∨ c = ' ' ∨ c = '　' ∨ c = '﻿'

/-- JavaScript `String.prototype.trim`: drop whitespace from both ends. -/
def jsTrim (l : List Char) : List Char :=
  ((l.dropWhile isWs).reverse.dropWhile isWs).reverse

mutual
/-- `splitWsGo cur l`: splitting state while inside a (possibly empty) piece whose
characters read so far are `cur` (reversed). Models `s.split(/\s+/)`. -/
def splitWsGo (cur : List Char) : List Char → List (List Char)
  | [] => [cur.reverse]
  | c :: rest =>
    if isWs c then cur.reverse :: splitWsSkip rest
    else splitWsGo (c :: cur) rest

/-- `splitWsSkip l`: splitting state just after a whitespace separator; further
whitespace extends the same separator (the `+` in `/\s+/`). -/
def splitWsSkip : List Char → List (List Char)
  | [] => [[]]
  | c :: rest =>
    if isWs c then splitWsSkip rest
    else splitWsGo [c] rest
end

/-- JavaScript `s.split(/\s+/)` on the character list of `s`. -/
def jsSplitWs (l : List Char) : List (List Char) :=
  splitWsGo [] l

/-- `estimateTokenCount(text)`: `0` for the empty string, otherwise
`max(text.trim().split(/\s+/).length, ceil(text.length / 4))`. -/
def estimateTokenCount (text : String) : Nat :=
  if text.data = [] then 0
  else
    let words := (jsSplitWs (jsTrim text.data)).length
    let chars := text.data.length
    max words ((chars + 3) / 4)

/-- A `SimpleTokenizer` instance. The class has no mutable fields; its only field is
the constant `mode = OutputMode.VSCode`. The instance state is carried explicitly so
that purity (the state coming out equals the state going in) is a statement, not a
modelling assumption. -/
structure SimpleTokenizer where
  mode : OutputMode := OutputMode.VSCode
deriving DecidableEq, Repr

/-- The `SimpleTokenizer` constructor (no arguments). -/
def SimpleTokenizer.make : SimpleTokenizer := { mode := OutputMode.VSCode }

/-- `SimpleTokenizer.tokenLength(part)`: `estimateTokenCount(part.text)` for text
parts, `0` otherwise. Returns the result together with the (unchanged) instance. -/
def SimpleTokenizer.tokenLength (t : SimpleTokenizer)
    (p : Raw.ChatCompletionContentPart) : Nat × SimpleTokenizer :=
  match p with
  | .text s => (estimateTokenCount s, t)
  | .nonText => (0, t)

/-- `SimpleTokenizer.countMessageTokens(message)`: `estimateTokenCount(message.content)`.
Returns the result together with the (unchanged) instance. -/
def SimpleTokenizer.countMessageTokens (t : SimpleTokenizer)
    (m : LanguageModelChatMessage) : Nat × SimpleTokenizer :=
  (estimateTokenCount m.content, t)

/-! ## `CancellationTokenSource` (`src/base/standalone-types.ts`)

State: `_isCancelled : boolean` and `_listeners : Array<listener>` (listeners are
identified by `Nat` ids). Two operations act on the state:
* `token.onCancellationRequested(listener)` pushes the listener — and nothing else:
  the code does not invoke the listener even when the source is already cancelled;
* `cancel()`: if not yet cancelled, sets the flag (also on the token) and invokes
  every currently registered listener, in order; otherwise does nothing.

A run is a list of operations executed from the freshly constructed state; the
invocations performed are collected into a log (the list of listener ids invoked,
in invocation order). -/

/-- The mutable state of a `CancellationTokenSource`. -/
structure CTSState where
  isCancelled : Bool
  listeners : List Nat
deriving DecidableEq, Repr

/-- The state of a freshly constructed `CancellationTokenSource`. -/
def CTSState.init : CTSState := { isCancelled := false, listeners := [] }

/-- An operation on a `CancellationTokenSource`: registering a listener on
`token.onCancellationRequested`, or calling `cancel()`. -/
inductive CTSOp where
  | register (id : Nat)
  | cancel
deriving DecidableEq, Repr

/-- One operation: the next state, plus the listener invocations it performs. -/
def CTSStep (s : CTSState) : CTSOp → CTSState × List Nat
  | .register id => ({ s with listeners := s.listeners ++ [id] }, [])
  | .cancel =>
    if s.isCancelled then (s, [])
    else ({ s with isCancelled := true }, s.listeners)

/-- Run a list of operations from a state, accumulating the invocation log. -/
def CTSRun (s : CTSState) : List CTSOp → CTSState × List Nat
  | [] => (s, [])
  | op :: rest =>
    let (s', log) := CTSStep s op
    let (s'', log') := CTSRun s' rest
    (s'', log ++ log')

/-- The number of `register id` operations occurring strictly before the first
`cancel` of the operation list. -/
def registrationsBeforeCancel (id : Nat) : List CTSOp → Nat
  | [] => 0
  | .cancel :: _ => 0
  | .register i :: rest =>
    (if i = id then 1 else 0) + registrationsBeforeCancel id rest

/-- Whether the operation list contains a `cancel`. -/
def hasCancel : List CTSOp → Bool
  | [] => false
  | .cancel :: _ => true
  | .register _ :: rest => hasCancel rest

/-! ## `FileContextTracker` (`examples/standalone-file-contents.tsx`)

The tracker's numeric fields (`aboveLine`, `belowLine`, `focusLine`) are JavaScript
numbers and are modelled as `Int`. JavaScript array indexing out of range yields
`undefined`, which the example then string-coerces (`allLines[i] + '\n'`, and
`lines.join('\n')` after an out-of-range `unshift`/`push`): this is modelled by
`getLine` returning the string `"undefined"` out of range. The `prefix` and `suffix`
fields are named `pre` and `suf` here (`prefix`/`suffix` are Lean keywords). -/

/-- Splitting state for `jsSplitLines`: the characters of the current piece so far
(reversed), and the rest of the input. -/
def splitLinesGo (cur : List Char) : List Char → List String
  | [] => [String.mk cur.reverse]
  | c :: rest =>
    if c = '\n' then String.mk cur.reverse :: splitLinesGo [] rest
    else splitLinesGo (c :: cur) rest

/-- JavaScript `s.split('\n')`: pieces between newline characters, empty pieces
retained (`''.split('\n')` is `['']`). -/
def jsSplitLines (s : String) : List String :=
  splitLinesGo [] s.data

/-- An `IFilesToInclude`: `{ filename: string; content: string; focusLine?: number }`. -/
structure FileToInclude where
  filename : String
  content : String
  focusLine : Option Int := none
deriving DecidableEq, Repr

/-- The `nextLineIs` field: `'above' | 'below' | 'none'`. -/
inductive NextLineIs where
  | above
  | below
  | none
deriving DecidableEq, Repr

/-- JavaScript array indexing plus string coercion: `xs[i]` is `undefined` out of
range, and string contexts render it as `"undefined"`. -/
def getLine (xs : List String) (i : Int) : String :=
  if h : 0 ≤ i ∧ i.toNat < xs.length then xs.get ⟨i.toNat, h.2⟩ else "undefined"

/-- The state of a `FileContextTracker`. -/
structure FileContextTracker where
  pre : String
  suf : String
  lines : List String
  allLines : List String
  aboveLine : Int
  belowLine : Int
  nextLineIs : NextLineIs
deriving DecidableEq, Repr

namespace FileContextTracker

/-- The focus line a tracker is constructed with:
`file.focusLine ?? Math.floor(allLines.length / 2)`. -/
def focusOf (file : FileToInclude) : Int :=
  file.focusLine.getD ((jsSplitLines file.content).length / 2)

/-- The `FileContextTracker` constructor. -/
def make (file : FileToInclude) : FileContextTracker :=
  let allLines := jsSplitLines file.content
  { pre := "# " ++ file.filename ++ "\n```\n"
    suf := "\n```\n"
    lines := []
    allLines := allLines
    aboveLine := focusOf file
    belowLine := focusOf file
    nextLineIs := .above }

/-- `tokenCount(sizing)`: the token cost of the header plus the footer. -/
def tokenCount (ct : String → Nat) (t : FileContextTracker) : Nat :=
  ct t.pre + ct t.suf

/-- `nextLine()`: the line (with trailing `'\n'`) that the following `expand()`
would add, or `undefined`. Reads the state without modifying it. -/
def nextLine (t : FileContextTracker) : Option String :=
  match t.nextLineIs with
  | .above =>
    if 0 ≤ t.aboveLine then some (getLine t.allLines t.aboveLine ++ "\n") else Option.none
  | .below =>
    if t.belowLine < (t.allLines.length : Int) then
      some (getLine t.allLines t.belowLine ++ "\n")
    else Option.none
  | .none => Option.none

/-- `expand()`: add the next line (above the focus via `unshift`, below it via
`push`) and advance the above/below cursors. -/
def expand (t : FileContextTracker) : FileContextTracker :=
  if t.nextLineIs = .above ∧ 0 ≤ t.aboveLine then
    let t' := { t with lines := getLine t.allLines t.aboveLine :: t.lines }
    if t.belowLine < (t.allLines.length : Int) - 1 then
      { t' with belowLine := t.belowLine + 1, nextLineIs := .below }
    else if 0 < t.aboveLine then
      { t' with aboveLine := t.aboveLine - 1 }
    else
      { t' with nextLineIs := .none }
  else if t.nextLineIs = .below ∧ t.belowLine < (t.allLines.length : Int) then
    let t' := { t with lines := t.lines ++ [getLine t.allLines t.belowLine] }
    if 0 < t.aboveLine then
      { t' with aboveLine := t.aboveLine - 1, nextLineIs := .above }
    else if t.belowLine < (t.allLines.length : Int) - 1 then
      { t' with belowLine := t.belowLine + 1 }
    else
      { t' with nextLineIs := .none }
  else t

/-- `toString()`: `prefix + lines.join('\n') + suffix`. -/
def render (t : FileContextTracker) : String :=
  t.pre ++ String.intercalate "\n" t.lines ++ t.suf

/-- Termination measure for the expansion loop: an upper bound on how many more
times this tracker can expand. Strictly decreases on every `expand` whose
`nextLine` is defined. -/
def measure (t : FileContextTracker) : Nat :=
  match t.nextLineIs with
  | .none => 0
  | _ => t.aboveLine.toNat + 1 + ((t.allLines.length : Int) - t.belowLine).toNat

end FileContextTracker

/-- Sum of the termination measures of a list of trackers. -/
def totalMeasure (l : List FileContextTracker) : Nat :=
  (l.map FileContextTracker.measure).sum

theorem totalMeasure_append (a b : List FileContextTracker) :
    totalMeasure (a ++ b) = totalMeasure a + totalMeasure b := by
  simp [totalMeasure]

/-- Each `expand` with a defined `nextLine` strictly decreases the measure. -/
theorem measure_expand_lt {t : FileContextTracker} {s : String}
    (h : t.nextLine = some s) :
    (FileContextTracker.expand t).measure < t.measure := by
  rcases ht : t.nextLineIs with _ | _ | _
  · -- nextLineIs = above
    have ha : 0 ≤ t.aboveLine := by
      by_contra ha
      simp [FileContextTracker.nextLine, ht, ha] at h
    unfold FileContextTracker.expand
    rw [if_pos ⟨ht, ha⟩]
    by_cases hb : t.belowLine < (t.allLines.length : Int) - 1
    · rw [if_pos hb]
      simp only [FileContextTracker.measure, ht]
      omega
    · rw [if_neg hb]
      by_cases ha0 : 0 < t.aboveLine
      · rw [if_pos ha0]
        simp only [FileContextTracker.measure, ht]
        omega
      · rw [if_neg ha0]
        simp only [FileContextTracker.measure, ht]
        omega
  · -- nextLineIs = below
    have hb : t.belowLine < (t.allLines.length : Int) := by
      by_contra hb
      simp [FileContextTracker.nextLine, ht, hb] at h
    unfold FileContextTracker.expand
    rw [if_neg (by rintro ⟨h1, -⟩; exact absurd (ht.symm.trans h1) (by decide))]
    rw [if_pos ⟨ht, hb⟩]
    by_cases ha0 : 0 < t.aboveLine
    · rw [if_pos ha0]
      simp only [FileContextTracker.measure, ht]
      omega
    · rw [if_neg ha0]
      by_cases hb1 : t.belowLine < (t.allLines.length : Int) - 1
      · rw [if_pos hb1]
        simp only [FileContextTracker.measure, ht]
        omega
      · rw [if_neg hb1]
        simp only [FileContextTracker.measure, ht]
        omega
  · -- nextLineIs = none
    simp [FileContextTracker.nextLine, ht] at h

/-! ### The expansion loop `FileContext.getExpandedFiles`

The `while (true)` / `for (const file of files)` loop is flattened into one
recursion: `done` holds the files already visited in the current pass, `todo` the
remaining ones, `anyHad` the loop's `anyHadLinesToExpand` flag, `tc` the running
`tokenCount`. An early `return files` from the middle of a pass yields
`done ++ todo` (files already visited keep their expansions; the rest are
untouched). Recursion is well-founded: visiting a file shrinks `todo`, expanding
strictly decreases the total measure, and restarting a pass happens only with
`anyHad = true`, which the previous expansion paid for. -/

/-- The body of `getExpandedFiles`' expansion loop. -/
def goExpand (B : Nat) (ct : String → Nat) (tc : Nat)
    (done todo : List FileContextTracker) (anyHad : Bool) : List FileContextTracker :=
  match todo with
  | [] => if anyHad then goExpand B ct tc [] done false else done
  | t :: rest =>
    match h : t.nextLine with
    | Option.none => goExpand B ct tc (done ++ [t]) rest anyHad
    | some l =>
      let c := ct l
      if B < tc + c then done ++ (t :: rest)
      else goExpand B ct (tc + c) (done ++ [t.expand]) rest true
termination_by (2 * totalMeasure (done ++ todo) + (if anyHad then 1 else 0), todo.length)
decreasing_by
  · apply Prod.Lex.left
    simp_all [List.append_nil]
  · apply Prod.Lex.right'
    · simp [totalMeasure_append]
    · simp
  · apply Prod.Lex.left
    have := measure_expand_lt h
    simp only [totalMeasure_append, totalMeasure, List.map_cons, List.map_nil,
      List.sum_cons, List.sum_nil]
    rcases anyHad <;> simp <;> omega

/-- `FileContext.getExpandedFiles(sizing)`: build one tracker per file, count the
headers, then run the cooperative expansion loop against `sizing.tokenBudget`
(`B`) and `sizing.countTokens` (`ct`). -/
def getExpandedFiles (B : Nat) (ct : String → Nat) (files : List FileToInclude) :
    List FileContextTracker :=
  let trackers := files.map FileContextTracker.make
  let tc := (trackers.map (FileContextTracker.tokenCount ct)).sum
  goExpand B ct tc [] trackers false

/-- The token cost of a tracker's produced content, as the claims measure it: the
header/footer cost plus the cost of every expanded line (each line was counted by
the loop with its trailing `'\n'`). -/
def trackerCost (ct : String → Nat) (t : FileContextTracker) : Nat :=
  ct t.pre + ct t.suf + (t.lines.map fun l => ct (l ++ "\n")).sum

/-- Total claimed cost of a list of trackers. -/
def totalCost (ct : String → Nat) (l : List FileContextTracker) : Nat :=
  (l.map (trackerCost ct)).sum

theorem totalCost_append (ct : String → Nat) (a b : List FileContextTracker) :
    totalCost ct (a ++ b) = totalCost ct a + totalCost ct b := by
  simp [totalCost]

/-! ## The render entry point `renderPrompt`

Modelled from the spec: the implementation of the rendering/allocation engine
(`renderPrompt` / evaluator / pruner / flattener) is not among the available
sources — only its tests, callers and type surface are. The model follows §2–§4,
§6 of the specification: an element tree evaluates to priority-carrying pieces
whose cost is measured by the tokenizer; the pruner sorts prunable units by
priority descending (declaration order breaking ties), greedily accepts units
while the running total stays within budget and permanently rejects from the
first unit that would exceed it; the flattener emits the survivors in
declaration order and sums their costs into `tokenCount`. `renderPrompt` fails
(returns `Except.error`) when the budget is not a positive integer. -/

/-- Modelled from the spec: a message element of the declarative tree — a message
container (role) with a numeric priority and literal text content (§3). -/
structure ElementMsg where
  role : LanguageModelChatMessageRole
  priority : Int
  content : String
deriving DecidableEq, Repr

/-- Modelled from the spec: an evaluated piece — the element plus its measured
token cost and its declaration index (§3, Piece Node). -/
structure Piece where
  role : LanguageModelChatMessageRole
  priority : Int
  content : String
  cost : Nat
  declIndex : Nat
deriving DecidableEq, Repr

/-- Modelled from the spec: the render result `{ messages, tokenCount }` (§6). -/
structure RenderResult where
  messages : List LanguageModelChatMessage
  tokenCount : Nat
deriving DecidableEq, Repr

/-- Stable insertion into a priority-descending list: an element goes after every
element of strictly-or-equally higher priority that was declared before it (§4.3
step 2: ties broken by original declaration order). -/
def insertByPriority (p : Piece) : List Piece → List Piece
  | [] => [p]
  | q :: rest =>
    if p.priority ≤ q.priority then q :: insertByPriority p rest
    else p :: q :: rest

/-- Stable sort by priority descending (§4.3 step 2). -/
def sortByPriority : List Piece → List Piece
  | [] => []
  | p :: rest => insertByPriority p (sortByPriority rest)

/-- Modelled from the spec (§4.3 step 3): greedily accept units in priority order
while the running total fits; the first unit that would exceed the remaining
budget is rejected together with everything after it. -/
def greedyAccept (budget : Nat) : List Piece → List Piece
  | [] => []
  | p :: rest =>
    if p.cost ≤ budget then p :: greedyAccept (budget - p.cost) rest
    else []

/-- Modelled from the spec: the evaluator measures each element's cost with the
tokenizer, tagging it with its declaration index (§4.1). -/
def evaluate (ct : String → Nat) (tree : List ElementMsg) : List Piece :=
  (tree.enum).map fun ei =>
    { role := ei.2.role
      priority := ei.2.priority
      content := ei.2.content
      cost := ct ei.2.content
      declIndex := ei.1 }

/-- Modelled from the spec: the flattener walks the surviving pieces in
declaration order — not priority order — and emits the role-tagged messages,
summing the retained cost (§4.4). -/
def flatten (accepted : List Piece) (pieces : List Piece) : RenderResult :=
  let surviving := pieces.filter fun p => accepted.any fun q => q.declIndex = p.declIndex
  { messages := surviving.map fun p => { role := p.role, content := p.content }
    tokenCount := (accepted.map Piece.cost).sum }

/-- Modelled from the spec: the render entry point. Fails when the budget is not a
positive integer (§6, §7 ConfigurationError); otherwise evaluates, prunes and
flattens. -/
def renderPrompt (tree : List ElementMsg) (modelMaxPromptTokens : Int)
    (ct : String → Nat) : Except String RenderResult :=
  if modelMaxPromptTokens ≤ 0 then .error "budget must be a positive integer"
  else
    let pieces := evaluate ct tree
    let accepted := greedyAccept modelMaxPromptTokens.toNat (sortByPriority pieces)
    .ok (flatten accepted pieces)

/-! ## Theorems for the claims -/

/-- Helper: every defined result of `toStandaloneChatMessage` carries one of the
three exposed roles. -/
theorem toStandaloneChatMessage_role {m : Raw.ChatMessage}
    {msg : LanguageModelChatMessage} (h : toStandaloneChatMessage m = some msg) :
    msg.role = LanguageModelChatMessageRole.System ∨
    msg.role = LanguageModelChatMessageRole.User ∨
    msg.role = LanguageModelChatMessageRole.Assistant := by
  cases hr : m.role <;> simp [toStandaloneChatMessage, hr] at h <;> rw [← h] <;> simp

/-- C4: the exposed role vocabulary is exactly the three pairwise-distinct roles
System, User, Assistant, and every defined message produced by
`toStandaloneChatMessage` (hence every element of `toStandaloneChatMessages`'
output) has its role in this three-element set. -/
theorem claim4_role_vocabulary :
    (LanguageModelChatMessageRole.System ≠ LanguageModelChatMessageRole.User ∧
     LanguageModelChatMessageRole.System ≠ LanguageModelChatMessageRole.Assistant ∧
     LanguageModelChatMessageRole.User ≠ LanguageModelChatMessageRole.Assistant) ∧
    (∀ (m : Raw.ChatMessage) (msg : LanguageModelChatMessage),
      toStandaloneChatMessage m = some msg →
        msg.role = LanguageModelChatMessageRole.System ∨
        msg.role = LanguageModelChatMessageRole.User ∨
        msg.role = LanguageModelChatMessageRole.Assistant) ∧
    (∀ (msgs : List Raw.ChatMessage) (msg : LanguageModelChatMessage),
      msg ∈ toStandaloneChatMessages msgs →
        msg.role = LanguageModelChatMessageRole.System ∨
        msg.role = LanguageModelChatMessageRole.User ∨
        msg.role = LanguageModelChatMessageRole.Assistant) := by
  refine ⟨⟨by decide, by decide, by decide⟩,
    fun m msg h => toStandaloneChatMessage_role h, ?_⟩
  intro msgs msg hmem
  simp only [toStandaloneChatMessages] at hmem
  rcases List.mem_filterMap.mp hmem with ⟨a, hamem, haeq⟩
  rcases List.mem_map.mp hamem with ⟨m, -, rfl⟩
  exact toStandaloneChatMessage_role haeq

/-- C4 witness: a concrete Tool-role raw message converts to a defined message
whose role is in the three-element set. -/
theorem claim4_role_vocabulary_witness :
    ∃ msg : LanguageModelChatMessage,
      toStandaloneChatMessage ⟨Raw.ChatRole.Tool, [Raw.ChatCompletionContentPart.text "x"], none⟩ =
        some msg ∧
      (msg.role = LanguageModelChatMessageRole.System ∨
       msg.role = LanguageModelChatMessageRole.User ∨
       msg.role = LanguageModelChatMessageRole.Assistant) :=
  ⟨_, rfl, claim4_role_vocabulary.2.1
    ⟨Raw.ChatRole.Tool, [Raw.ChatCompletionContentPart.text "x"], none⟩ _ rfl⟩

/-- C8: Tool-role raw messages convert to User-role messages whose content is
`"Tool result: "` prepended to the concatenated text parts; roles other than
Assistant/User/System/Tool convert to `undefined`; and `toStandaloneChatMessages`
drops exactly the undefined results, preserving the order of the rest (it equals
`filterMap` of the single-message conversion). -/
theorem claim8_tool_and_unknown_conversion :
    (∀ m : Raw.ChatMessage, m.role = Raw.ChatRole.Tool →
      toStandaloneChatMessage m = some
        { role := LanguageModelChatMessageRole.User
          content := "Tool result: " ++ onlyStringContent m.content
          name := m.name }) ∧
    (∀ m : Raw.ChatMessage,
      m.role ≠ Raw.ChatRole.Assistant → m.role ≠ Raw.ChatRole.User →
      m.role ≠ Raw.ChatRole.System → m.role ≠ Raw.ChatRole.Tool →
      toStandaloneChatMessage m = none) ∧
    (∀ msgs : List Raw.ChatMessage,
      toStandaloneChatMessages msgs = msgs.filterMap toStandaloneChatMessage) := by
  refine ⟨?_, ?_, ?_⟩
  · intro m h
    simp [toStandaloneChatMessage, h]
  · intro m h1 h2 h3 h4
    cases hr : m.role <;> simp_all [toStandaloneChatMessage]
  · intro msgs
    simp [toStandaloneChatMessages, List.filterMap_map]

/-- C8 witness: a concrete Tool message, a concrete unknown-role message, and a
concrete list exercising the drop-and-keep-order behavior. -/
theorem claim8_tool_and_unknown_conversion_witness :
    toStandaloneChatMessage ⟨Raw.ChatRole.Tool, [Raw.ChatCompletionContentPart.text "out"], some "n"⟩ =
      some { role := LanguageModelChatMessageRole.User
             content := "Tool result: " ++
               onlyStringContent [Raw.ChatCompletionContentPart.text "out"]
             name := some "n" } ∧
    toStandaloneChatMessage ⟨Raw.ChatRole.unknown 9, [Raw.ChatCompletionContentPart.text "x"], none⟩ =
      none :=
  ⟨claim8_tool_and_unknown_conversion.1 _ rfl,
   claim8_tool_and_unknown_conversion.2.1 _ (by decide) (by decide) (by decide) (by decide)⟩

/-- C6: `SimpleTokenizer.tokenLength` and `SimpleTokenizer.countMessageTokens` are
pure and deterministic: equal inputs give equal counts on any two instances, and
the instance state is unchanged by every call. -/
theorem claim6_simpleTokenizer_pure_deterministic :
    ∀ (t1 t2 : SimpleTokenizer) (p : Raw.ChatCompletionContentPart)
      (m : LanguageModelChatMessage),
      (t1.tokenLength p).1 = (t2.tokenLength p).1 ∧
      (t1.tokenLength p).2 = t1 ∧
      (t1.countMessageTokens m).1 = (t2.countMessageTokens m).1 ∧
      (t1.countMessageTokens m).2 = t1 := by
  intro t1 t2 p m
  refine ⟨?_, ?_, rfl, rfl⟩ <;> cases p <;> rfl

/-- C10: the `StandaloneTokenizer` and `VSCodeTokenizer` constructors throw
exactly when the mode argument is not `OutputMode.VSCode`, and a successfully
constructed instance has `mode = OutputMode.VSCode`. -/
theorem claim10_tokenizer_ctor_mode :
    ∀ (ct : String → Nat) (mode : OutputMode),
      ((∃ e, StandaloneTokenizer.make ct mode = .error e) ↔ mode ≠ OutputMode.VSCode) ∧
      (∀ t, StandaloneTokenizer.make ct mode = .ok t → t.mode = OutputMode.VSCode) ∧
      ((∃ e, VSCodeTokenizer.make ct mode = .error e) ↔ mode ≠ OutputMode.VSCode) ∧
      (∀ t, VSCodeTokenizer.make ct mode = .ok t → t.mode = OutputMode.VSCode) := by
  intro ct mode
  by_cases h : mode = OutputMode.VSCode
  · simp only [StandaloneTokenizer.make, VSCodeTokenizer.make, h, if_pos rfl]
    refine ⟨by simp, fun t ht => ?_, by simp, fun t ht => ?_⟩ <;>
      · rw [if_pos trivial] at ht
        injection ht with ht2
        rw [← ht2]
  · simp [StandaloneTokenizer.make, VSCodeTokenizer.make, h]

/-- C10 witness: constructing with `OutputMode.VSCode` succeeds with
`mode = OutputMode.VSCode`; constructing with `OutputMode.OpenAI` throws. -/
theorem claim10_tokenizer_ctor_mode_witness :
    ({ mode := OutputMode.VSCode, countTokens := fun _ => 0 } : StandaloneTokenizer).mode =
      OutputMode.VSCode ∧
    (∃ e, StandaloneTokenizer.make (fun _ => 0) OutputMode.OpenAI = .error e) :=
  ⟨(claim10_tokenizer_ctor_mode (fun _ => 0) OutputMode.VSCode).2.1 _ rfl,
   (claim10_tokenizer_ctor_mode (fun _ => 0) OutputMode.OpenAI).1.mpr (by decide)⟩

/-! ### C5: cancellation listeners -/

/-- Helper: once cancelled, a run performs no further invocations and the flag
stays set (`cancel()` is guarded by `_isCancelled`, and registration never invokes). -/
theorem ctsRun_cancelled (L : List Nat) :
    ∀ ops : List CTSOp,
      (CTSRun ⟨true, L⟩ ops).2 = [] ∧ (CTSRun ⟨true, L⟩ ops).1.isCancelled = true := by
  intro ops
  induction ops generalizing L with
  | nil => exact ⟨rfl, rfl⟩
  | cons op rest ih =>
    cases op with
    | register id =>
      simpa [CTSRun, CTSStep] using ih (L ++ [id])
    | cancel =>
      simpa [CTSRun, CTSStep] using ih L

/-- Helper: from a not-yet-cancelled state with listener list `L`, a run containing
a `cancel` invokes `id` exactly `L.count id` plus the number of times `id` is
registered before the first `cancel`, and ends cancelled. -/
theorem ctsRun_count (id : Nat) :
    ∀ (ops : List CTSOp) (L : List Nat), hasCancel ops = true →
      ((CTSRun ⟨false, L⟩ ops).2.count id =
        L.count id + registrationsBeforeCancel id ops) ∧
      (CTSRun ⟨false, L⟩ ops).1.isCancelled = true := by
  intro ops
  induction ops with
  | nil => intro L h; exact absurd h (by simp [hasCancel])
  | cons op rest ih =>
    intro L h
    cases op with
    | register i =>
      have h' : hasCancel rest = true := by simpa [hasCancel] using h
      have := ih (L ++ [i]) h'
      constructor
      · simp only [CTSRun, CTSStep, List.nil_append, registrationsBeforeCancel]
        rw [this.1]
        simp [List.count_append, List.count_singleton']
        by_cases hi : i = id <;> simp [hi] <;> omega
      · simpa [CTSRun, CTSStep] using this.2
    | cancel =>
      have hrest := ctsRun_cancelled L rest
      constructor
      · simp [CTSRun, CTSStep, registrationsBeforeCancel, hrest.1]
      · simpa [CTSRun, CTSStep] using hrest.2

/-- C5 counterexample: the claim says a listener registered after `cancel()` has
fired "is notified". In the run `cancel; register 0; cancel` listener `0` is never
invoked (the invocation log is empty), even though a further `cancel()` follows:
the code's `onCancellationRequested` only pushes the listener, and `cancel()` never
re-fires. -/
theorem claim5_counterexample :
    (CTSRun CTSState.init [CTSOp.cancel, CTSOp.register 0, CTSOp.cancel]).2.count 0 = 0 ∧
    (CTSRun CTSState.init [CTSOp.cancel]).1.isCancelled = true := by
  constructor <;> rfl

/-- C5 (amended): for every run containing a `cancel`, each listener is invoked
exactly as many times as it was registered strictly before the first `cancel`
(so a listener registered once before the first `cancel` is invoked exactly once,
no matter how many `cancel()`s follow, and a listener registered after the fire is
never invoked); and after any `cancel` has executed, `isCancellationRequested` is
`true`, so later registrations observe the already-cancelled state at registration
time. -/
theorem claim5_cancellation_amended (ops : List CTSOp) (id : Nat)
    (h : hasCancel ops = true) :
    (CTSRun CTSState.init ops).2.count id = registrationsBeforeCancel id ops ∧
    (CTSRun CTSState.init ops).1.isCancelled = true := by
  have := ctsRun_count id ops [] h
  simpa [CTSState.init] using this

/-- C5 witness: a concrete run — register 7, cancel, cancel, register 8 — invokes
listener 7 exactly once, never invokes listener 8, and ends cancelled. -/
theorem claim5_cancellation_amended_witness :
    ((CTSRun CTSState.init
        [CTSOp.register 7, CTSOp.cancel, CTSOp.cancel, CTSOp.register 8]).2.count 7 =
      registrationsBeforeCancel 7
        [CTSOp.register 7, CTSOp.cancel, CTSOp.cancel, CTSOp.register 8]) ∧
    (registrationsBeforeCancel 7
        [CTSOp.register 7, CTSOp.cancel, CTSOp.cancel, CTSOp.register 8] = 1) ∧
    ((CTSRun CTSState.init
        [CTSOp.register 7, CTSOp.cancel, CTSOp.cancel, CTSOp.register 8]).2.count 8 = 0) ∧
    (CTSRun CTSState.init
        [CTSOp.register 7, CTSOp.cancel, CTSOp.cancel, CTSOp.register 8]).1.isCancelled = true :=
  ⟨(claim5_cancellation_amended
      [CTSOp.register 7, CTSOp.cancel, CTSOp.cancel, CTSOp.register 8] 7 (by decide)).1,
   by decide, by decide,
   (claim5_cancellation_amended
      [CTSOp.register 7, CTSOp.cancel, CTSOp.cancel, CTSOp.register 8] 7 (by decide)).2⟩

/-! ### C2: the expansion loop respects its budget -/

/-- Helper: expanding adds exactly the cost of the line `nextLine` reported (the
loop counts `nextLine`'s string, which is the stored line plus `'\n'`). -/
theorem trackerCost_expand {t : FileContextTracker} {l : String}
    (ct : String → Nat) (h : t.nextLine = some l) :
    trackerCost ct t.expand = trackerCost ct t + ct l := by
  rcases ht : t.nextLineIs with _ | _ | _
  · have ha : 0 ≤ t.aboveLine := by
      by_contra ha
      simp [FileContextTracker.nextLine, ht, ha] at h
    have hl : l = getLine t.allLines t.aboveLine ++ "\n" := by
      have := h
      simp only [FileContextTracker.nextLine, ht, if_pos ha, Option.some.injEq] at this
      exact this.symm
    unfold FileContextTracker.expand
    rw [if_pos ⟨ht, ha⟩]
    by_cases hb : t.belowLine < (t.allLines.length : Int) - 1
    · rw [if_pos hb]
      simp [trackerCost, hl]
      ring
    · rw [if_neg hb]
      by_cases ha0 : 0 < t.aboveLine
      · rw [if_pos ha0]
        simp [trackerCost, hl]
        ring
      · rw [if_neg ha0]
        simp [trackerCost, hl]
        ring
  · have hb : t.belowLine < (t.allLines.length : Int) := by
      by_contra hb
      simp [FileContextTracker.nextLine, ht, hb] at h
    have hl : l = getLine t.allLines t.belowLine ++ "\n" := by
      have := h
      simp only [FileContextTracker.nextLine, ht, if_pos hb, Option.some.injEq] at this
      exact this.symm
    unfold FileContextTracker.expand
    rw [if_neg (by rintro ⟨h1, -⟩; exact absurd (ht.symm.trans h1) (by decide))]
    rw [if_pos ⟨ht, hb⟩]
    by_cases ha0 : 0 < t.aboveLine
    · rw [if_pos ha0]
      simp [trackerCost, hl]
      ring
    · rw [if_neg ha0]
      by_cases hb1 : t.belowLine < (t.allLines.length : Int) - 1
      · rw [if_pos hb1]
        simp [trackerCost, hl]
        ring
      · rw [if_neg hb1]
        simp [trackerCost, hl]
        ring
  · simp [FileContextTracker.nextLine, ht] at h

/-- Helper: the loop's running `tokenCount` equals the total claimed cost of the
current tracker states, and never exceeds the budget; hence neither does the cost
of the returned trackers. -/
theorem goExpand_cost_le (B : Nat) (ct : String → Nat) :
    ∀ (tc : Nat) (done todo : List FileContextTracker) (anyHad : Bool),
      tc = totalCost ct (done ++ todo) → tc ≤ B →
      totalCost ct (goExpand B ct tc done todo anyHad) ≤ B := by
  intro tc done todo anyHad
  induction tc, done, todo, anyHad using goExpand.induct B ct with
  | case1 tc done ih =>
    intro heq hle
    rw [goExpand]
    simp only [if_pos rfl]
    exact ih (by simpa using heq) hle
  | case2 tc done anyHad hff =>
    intro heq hle
    rw [goExpand]
    rw [if_neg hff]
    rw [← List.append_nil done, ← heq]
    exact hle
  | case3 tc done anyHad t rest hnl ih =>
    intro heq hle
    rw [goExpand, hnl]
    exact ih (by rw [heq]; simp [totalCost_append]) hle
  | case4 tc done anyHad t rest l hnl c hover =>
    intro heq hle
    rw [goExpand, hnl]
    simp only [if_pos hover]
    rw [← heq]
    exact hle
  | case5 tc done anyHad t rest l hnl c hfits ih =>
    intro heq hle
    rw [goExpand, hnl]
    simp only [if_neg hfits]
    refine ih ?_ (by omega)
    rw [heq]
    simp only [totalCost, List.map_append, List.sum_append, List.map_cons, List.sum_cons,
      List.map_nil, List.sum_nil, trackerCost_expand ct hnl]
    omega

/-- C2 counterexample: the claim as stated fails when the fixed header/footer cost
alone exceeds the budget: with one file `"f"` of content `"a"`, `countTokens =
String.length` and `tokenBudget = 0`, the returned content's total cost is 13 > 0
(the loop checks only line additions against the budget, never the headers). -/
theorem claim2_counterexample :
    ¬ totalCost String.length
        (getExpandedFiles 0 String.length [⟨"f", "a", none⟩]) ≤ 0 := by
  rw [getExpandedFiles, goExpand.eq_def]
  decide

/-- C2 (amended): whenever the total header/footer cost of the files fits in the
budget, the content returned by `getExpandedFiles` has total cost (headers plus
every expanded line, as measured by `countTokens`) at most `tokenBudget`. -/
theorem claim2_expansion_within_budget (B : Nat) (ct : String → Nat)
    (files : List FileToInclude)
    (h : ((files.map FileContextTracker.make).map (FileContextTracker.tokenCount ct)).sum ≤ B) :
    totalCost ct (getExpandedFiles B ct files) ≤ B := by
  rw [getExpandedFiles]
  refine goExpand_cost_le B ct _ [] _ false ?_ h
  simp only [List.nil_append, totalCost, List.map_map]
  refine congrArg List.sum (List.map_congr_left fun f hf => ?_)
  simp [Function.comp, trackerCost, FileContextTracker.make, FileContextTracker.tokenCount]

/-- C2 witness: one concrete file under budget 20 with `countTokens = String.length`:
the headers cost 13 ≤ 20, and the returned content's total cost is within 20. -/
theorem claim2_expansion_within_budget_witness :
    ((([⟨"f", "l0\nl1\nl2", some 1⟩] : List FileToInclude).map
        FileContextTracker.make).map (FileContextTracker.tokenCount String.length)).sum ≤ 20 ∧
    totalCost String.length
      (getExpandedFiles 20 String.length [⟨"f", "l0\nl1\nl2", some 1⟩]) ≤ 20 :=
  ⟨by decide,
   claim2_expansion_within_budget 20 String.length [⟨"f", "l0\nl1\nl2", some 1⟩] (by decide)⟩

/-! ### C3: flex monotonicity of the expansion loop -/

/-- One tracker state extends another: same header/footer/source lines, and the
accumulated lines of the first are a contiguous run inside those of the second. -/
def TrackerExtends (t t' : FileContextTracker) : Prop :=
  t'.pre = t.pre ∧ t'.suf = t.suf ∧ t'.allLines = t.allLines ∧ t.lines <:+: t'.lines

theorem TrackerExtends.refl (t : FileContextTracker) : TrackerExtends t t :=
  ⟨rfl, rfl, rfl, List.infix_refl _⟩

theorem TrackerExtends.trans {a b c : FileContextTracker}
    (h1 : TrackerExtends a b) (h2 : TrackerExtends b c) : TrackerExtends a c :=
  ⟨h2.1.trans h1.1, h2.2.1.trans h1.2.1, h2.2.2.1.trans h1.2.2.1,
   h1.2.2.2.trans h2.2.2.2⟩

/-- Expanding a tracker extends it (the new line goes to the front or the back). -/
theorem TrackerExtends.expand (t : FileContextTracker) : TrackerExtends t t.expand := by
  unfold FileContextTracker.expand
  by_cases h1 : t.nextLineIs = NextLineIs.above ∧ 0 ≤ t.aboveLine
  · rw [if_pos h1]
    by_cases hb : t.belowLine < (t.allLines.length : Int) - 1
    · rw [if_pos hb]
      exact ⟨rfl, rfl, rfl, (List.infix_cons_iff.mpr (Or.inr (List.infix_refl _)) : _)⟩
    · rw [if_neg hb]
      by_cases ha0 : 0 < t.aboveLine
      · rw [if_pos ha0]
        exact ⟨rfl, rfl, rfl, List.infix_cons_iff.mpr (Or.inr (List.infix_refl _))⟩
      · rw [if_neg ha0]
        exact ⟨rfl, rfl, rfl, List.infix_cons_iff.mpr (Or.inr (List.infix_refl _))⟩
  · rw [if_neg h1]
    by_cases h2 : t.nextLineIs = NextLineIs.below ∧ t.belowLine < (t.allLines.length : Int)
    · rw [if_pos h2]
      have hinf : t.lines <:+: t.lines ++ [getLine t.allLines t.belowLine] :=
        (List.prefix_append _ _).isInfix
      by_cases ha0 : 0 < t.aboveLine
      · rw [if_pos ha0]; exact ⟨rfl, rfl, rfl, hinf⟩
      · rw [if_neg ha0]
        by_cases hb1 : t.belowLine < (t.allLines.length : Int) - 1
        · rw [if_pos hb1]; exact ⟨rfl, rfl, rfl, hinf⟩
        · rw [if_neg hb1]; exact ⟨rfl, rfl, rfl, hinf⟩
    · rw [if_neg h2]
      exact TrackerExtends.refl t

theorem forall₂_trackerExtends_refl :
    ∀ l : List FileContextTracker, List.Forall₂ TrackerExtends l l := by
  intro l
  induction l with
  | nil => exact List.Forall₂.nil
  | cons x xs ih => exact List.Forall₂.cons (TrackerExtends.refl x) ih

theorem forall₂_trackerExtends_trans :
    ∀ {a b c : List FileContextTracker}, List.Forall₂ TrackerExtends a b →
      List.Forall₂ TrackerExtends b c → List.Forall₂ TrackerExtends a c := by
  intro a b c h1 h2
  induction h1 generalizing c with
  | nil => cases h2; exact List.Forall₂.nil
  | cons hx hxs ih =>
    cases h2 with
    | cons hy hys => exact List.Forall₂.cons (hx.trans hy) (ih hys)

theorem forall₂_trackerExtends_append :
    ∀ {a b c d : List FileContextTracker}, List.Forall₂ TrackerExtends a b →
      List.Forall₂ TrackerExtends c d → List.Forall₂ TrackerExtends (a ++ c) (b ++ d) := by
  intro a b c d h1 h2
  induction h1 with
  | nil => exact h2
  | cons hx hxs ih => exact List.Forall₂.cons hx ih

/-- Helper: the expansion loop only ever extends the tracker states it was
started with (headers and source lines unchanged, line runs only grow). -/
theorem goExpand_extends (B : Nat) (ct : String → Nat) :
    ∀ (tc : Nat) (done todo : List FileContextTracker) (anyHad : Bool),
      List.Forall₂ TrackerExtends (done ++ todo) (goExpand B ct tc done todo anyHad) := by
  intro tc done todo anyHad
  induction tc, done, todo, anyHad using goExpand.induct B ct with
  | case1 tc done ih =>
    rw [goExpand]
    simp only [if_pos rfl]
    simpa using ih
  | case2 tc done anyHad hff =>
    rw [goExpand, if_neg hff]
    simpa using forall₂_trackerExtends_refl done
  | case3 tc done anyHad t rest hnl ih =>
    rw [goExpand, hnl]
    simpa using ih
  | case4 tc done anyHad t rest l hnl c hover =>
    rw [goExpand, hnl]
    simp only [if_pos hover]
    exact forall₂_trackerExtends_refl _
  | case5 tc done anyHad t rest l hnl c hfits ih =>
    rw [goExpand, hnl]
    simp only [if_neg hfits]
    refine forall₂_trackerExtends_trans ?_ ih
    rw [List.append_assoc]
    refine forall₂_trackerExtends_append (forall₂_trackerExtends_refl done) ?_
    exact List.Forall₂.cons (TrackerExtends.expand t) (forall₂_trackerExtends_refl rest)

/-- Helper: raising the budget makes the loop produce, from identical starting
states, tracker states that extend the lower-budget run's results (the two runs
are in lockstep until the lower budget is exhausted, after which the higher-budget
run only expands further). -/
theorem goExpand_mono (B1 B2 : Nat) (ct : String → Nat) (h12 : B1 ≤ B2) :
    ∀ (tc : Nat) (done todo : List FileContextTracker) (anyHad : Bool),
      List.Forall₂ TrackerExtends (goExpand B1 ct tc done todo anyHad)
        (goExpand B2 ct tc done todo anyHad) := by
  intro tc done todo anyHad
  induction tc, done, todo, anyHad using goExpand.induct B1 ct with
  | case1 tc done ih =>
    rw [goExpand, if_pos rfl]
    conv_rhs => rw [goExpand, if_pos rfl]
    exact ih
  | case2 tc done anyHad hff =>
    rw [goExpand, if_neg hff]
    conv_rhs => rw [goExpand, if_neg hff]
    exact forall₂_trackerExtends_refl done
  | case3 tc done anyHad t rest hnl ih =>
    rw [goExpand, hnl]
    conv_rhs => rw [goExpand, hnl]
    exact ih
  | case4 tc done anyHad t rest l hnl c hover =>
    rw [goExpand, hnl]
    simp only [if_pos hover]
    conv_rhs => rw [goExpand, hnl]
    by_cases h2 : B2 < tc + ct l
    · simp only [if_pos h2]
      exact forall₂_trackerExtends_refl _
    · simp only [if_neg h2]
      refine forall₂_trackerExtends_trans ?_ (goExpand_extends B2 ct _ _ _ _)
      rw [List.append_assoc]
      refine forall₂_trackerExtends_append (forall₂_trackerExtends_refl done) ?_
      exact List.Forall₂.cons (TrackerExtends.expand t) (forall₂_trackerExtends_refl rest)
  | case5 tc done anyHad t rest l hnl c hfits ih =>
    rw [goExpand, hnl]
    simp only [if_neg hfits]
    conv_rhs => rw [goExpand, hnl]
    have h2 : ¬ B2 < tc + ct l := by omega
    simp only [if_neg h2]
    exact ih

/-- C3 counterexample: with `B1 = B2 = 0` (so `B1 ≤ B2`) and one file, the content
produced under `B2` exceeds `B2`: the headers alone cost 14 > 0, refuting the
claim's "does not exceed B2" conjunct. -/
theorem claim3_counterexample :
    ¬ totalCost String.length
        (getExpandedFiles 0 String.length [⟨"g", "ab", none⟩]) ≤ 0 := by
  rw [getExpandedFiles, goExpand.eq_def]
  decide

/-- C3 (amended): for budgets `B1 ≤ B2`, every file's lines expanded under `B1`
are a contiguous sub-run of the lines expanded under `B2` (increasing the budget
never loses content), and — provided the fixed header/footer cost fits in `B2` —
the content produced under `B2` does not exceed `B2`. -/
theorem claim3_flex_monotonicity (B1 B2 : Nat) (ct : String → Nat)
    (files : List FileToInclude) (h12 : B1 ≤ B2)
    (hheader : ((files.map FileContextTracker.make).map (FileContextTracker.tokenCount ct)).sum ≤ B2) :
    List.Forall₂ (fun t1 t2 => t1.lines <:+: t2.lines)
      (getExpandedFiles B1 ct files) (getExpandedFiles B2 ct files) ∧
    totalCost ct (getExpandedFiles B2 ct files) ≤ B2 := by
  constructor
  · have := goExpand_mono B1 B2 ct h12
      ((files.map FileContextTracker.make).map (FileContextTracker.tokenCount ct)).sum
      [] (files.map FileContextTracker.make) false
    rw [getExpandedFiles, getExpandedFiles]
    exact this.imp fun a b hab => hab.2.2.2
  · exact claim2_expansion_within_budget B2 ct files hheader

/-- C3 witness: budgets 16 ≤ 20 on a concrete file — the 16-run's lines embed in
the 20-run's lines and the 20-run's cost stays within 20. -/
theorem claim3_flex_monotonicity_witness :
    (0 : Nat) ≤ 20 ∧
    ((([⟨"f", "l0\nl1\nl2", some 1⟩] : List FileToInclude).map
        FileContextTracker.make).map (FileContextTracker.tokenCount String.length)).sum ≤ 20 ∧
    (List.Forall₂ (fun t1 t2 => t1.lines <:+: t2.lines)
      (getExpandedFiles 16 String.length [⟨"f", "l0\nl1\nl2", some 1⟩])
      (getExpandedFiles 20 String.length [⟨"f", "l0\nl1\nl2", some 1⟩]) ∧
    totalCost String.length
      (getExpandedFiles 20 String.length [⟨"f", "l0\nl1\nl2", some 1⟩]) ≤ 20) :=
  ⟨by decide, by decide,
   claim3_flex_monotonicity 16 20 String.length [⟨"f", "l0\nl1\nl2", some 1⟩]
     (by decide) (by decide)⟩

/-! ### C9: the tracker's lines are a contiguous, focus-containing slice -/

/-- The contiguous slice of `xs` from index `lo` (inclusive) to `hi` (exclusive),
with `Int` endpoints as the tracker's cursors are `Int`-valued. -/
def sliceI (xs : List String) (lo hi : Int) : List String :=
  (xs.drop lo.toNat).take (hi - lo).toNat

theorem sliceI_empty (xs : List String) {lo hi : Int} (h : hi ≤ lo) :
    sliceI xs lo hi = [] := by
  unfold sliceI
  rw [show (hi - lo).toNat = 0 by omega]
  simp

theorem sliceI_all (xs : List String) : sliceI xs 0 (xs.length : Int) = xs := by
  unfold sliceI
  simp

/-- Prepending the element at `a` to the slice starting at `a + 1`. -/
theorem sliceI_cons (xs : List String) {a c : Int} (h0 : 0 ≤ a)
    (hlen : a < (xs.length : Int)) (hac : a < c) :
    getLine xs a :: sliceI xs (a + 1) c = sliceI xs a c := by
  have hnat : a.toNat < xs.length := by omega
  unfold sliceI getLine
  rw [dif_pos ⟨h0, hnat⟩]
  rw [show (a + 1).toNat = a.toNat + 1 by omega]
  rw [show (c - a).toNat = (c - (a + 1)).toNat + 1 by omega]
  rw [List.drop_eq_getElem_cons hnat]
  rfl

/-- Appending the element at `b` to the slice ending at `b`. -/
theorem sliceI_concat (xs : List String) {a b : Int} (h0 : 0 ≤ a)
    (hab : a ≤ b) (hlen : b < (xs.length : Int)) :
    sliceI xs a b ++ [getLine xs b] = sliceI xs a (b + 1) := by
  have hnat : b.toNat < xs.length := by omega
  unfold sliceI getLine
  rw [dif_pos ⟨by omega, hnat⟩]
  rw [show (b + 1 - a).toNat = (b - a).toNat + 1 by omega]
  rw [List.take_succ]
  congr 1
  rw [List.getElem?_drop]
  rw [show a.toNat + (b - a).toNat = b.toNat by omega]
  rw [List.getElem?_eq_getElem hnat]
  rfl

/-- The tracker states reachable from `make file` by `expand` calls (`nextLine`
reads the state without modifying it, so arbitrary interleavings of `nextLine`
and `expand` visit exactly these states). -/
inductive Reachable (file : FileToInclude) : FileContextTracker → Prop where
  | init : Reachable file (FileContextTracker.make file)
  | step {t : FileContextTracker} : Reachable file t → Reachable file t.expand

/-- The slice invariant tying the cursors, the direction flag and the accumulated
lines together, for focus line `f`. -/
def TrackerInv (f : Int) (t : FileContextTracker) : Prop :=
  (t.nextLineIs = NextLineIs.above ∧ t.lines = [] ∧ t.aboveLine = f ∧ t.belowLine = f) ∨
  (t.nextLineIs = NextLineIs.above ∧ 0 ≤ t.aboveLine ∧ t.aboveLine < f ∧
    f ≤ t.belowLine ∧ t.belowLine ≤ (t.allLines.length : Int) - 1 ∧
    t.lines = sliceI t.allLines (t.aboveLine + 1) (t.belowLine + 1)) ∨
  (t.nextLineIs = NextLineIs.below ∧ 0 ≤ t.aboveLine ∧ t.aboveLine ≤ f ∧
    f < t.belowLine ∧ t.belowLine ≤ (t.allLines.length : Int) - 1 ∧
    t.lines = sliceI t.allLines t.aboveLine t.belowLine) ∨
  (t.nextLineIs = NextLineIs.none ∧ t.lines = t.allLines)

/-- Expanding never changes the source lines. -/
theorem expand_allLines (t : FileContextTracker) : (t.expand).allLines = t.allLines := by
  unfold FileContextTracker.expand
  split_ifs <;> rfl

/-- Preservation: one `expand` keeps the slice invariant, provided the focus is a
valid index of the source lines. -/
theorem trackerInv_expand {f : Int} {t : FileContextTracker}
    (hf0 : 0 ≤ f) (hflen : f < (t.allLines.length : Int))
    (h : TrackerInv f t) : TrackerInv f t.expand := by
  rcases h with ⟨hn, hl, ha, hb⟩ | ⟨hn, h0, haf, hfb, hblen, hl⟩ |
    ⟨hn, h0, haf, hfb, hblen, hl⟩ | ⟨hn, hl⟩
  · -- initial state: above, empty lines, cursors at the focus
    unfold FileContextTracker.expand
    rw [if_pos ⟨hn, by omega⟩]
    have hcons : getLine t.allLines t.aboveLine :: t.lines =
        sliceI t.allLines t.aboveLine (t.belowLine + 1) := by
      rw [hl, ha, hb, ← sliceI_cons t.allLines hf0 hflen (by omega),
        sliceI_empty t.allLines (by omega)]
    by_cases hb1 : t.belowLine < (t.allLines.length : Int) - 1
    · rw [if_pos hb1]
      refine Or.inr (Or.inr (Or.inl ⟨rfl, ?_, ?_, ?_, ?_, ?_⟩)) <;> dsimp only
      · omega
      · omega
      · omega
      · omega
      · exact hcons
    · rw [if_neg hb1]
      by_cases ha0 : 0 < t.aboveLine
      · rw [if_pos ha0]
        refine Or.inr (Or.inl ⟨?_, ?_, ?_, ?_, ?_, ?_⟩) <;> dsimp only
        · exact hn
        · omega
        · omega
        · omega
        · omega
        · rw [show t.aboveLine - 1 + 1 = t.aboveLine by ring]
          exact hcons
      · rw [if_neg ha0]
        refine Or.inr (Or.inr (Or.inr ⟨rfl, ?_⟩))
        dsimp only
        rw [hcons, show t.aboveLine = 0 by omega,
          show t.belowLine + 1 = (t.allLines.length : Int) by omega]
        exact sliceI_all t.allLines
  · -- above state with accumulated lines
    unfold FileContextTracker.expand
    rw [if_pos ⟨hn, h0⟩]
    have hcons : getLine t.allLines t.aboveLine :: t.lines =
        sliceI t.allLines t.aboveLine (t.belowLine + 1) := by
      rw [hl]
      exact sliceI_cons t.allLines h0 (by omega) (by omega)
    by_cases hb1 : t.belowLine < (t.allLines.length : Int) - 1
    · rw [if_pos hb1]
      refine Or.inr (Or.inr (Or.inl ⟨rfl, ?_, ?_, ?_, ?_, ?_⟩)) <;> dsimp only
      · omega
      · omega
      · omega
      · omega
      · exact hcons
    · rw [if_neg hb1]
      by_cases ha0 : 0 < t.aboveLine
      · rw [if_pos ha0]
        refine Or.inr (Or.inl ⟨?_, ?_, ?_, ?_, ?_, ?_⟩) <;> dsimp only
        · exact hn
        · omega
        · omega
        · omega
        · omega
        · rw [show t.aboveLine - 1 + 1 = t.aboveLine by ring]
          exact hcons
      · rw [if_neg ha0]
        refine Or.inr (Or.inr (Or.inr ⟨rfl, ?_⟩))
        dsimp only
        rw [hcons, show t.aboveLine = 0 by omega,
          show t.belowLine + 1 = (t.allLines.length : Int) by omega]
        exact sliceI_all t.allLines
  · -- below state
    unfold FileContextTracker.expand
    rw [if_neg (by rintro ⟨h1, -⟩; exact absurd (hn.symm.trans h1) (by decide))]
    rw [if_pos ⟨hn, by omega⟩]
    have hconc : t.lines ++ [getLine t.allLines t.belowLine] =
        sliceI t.allLines t.aboveLine (t.belowLine + 1) := by
      rw [hl]
      exact sliceI_concat t.allLines h0 (by omega) (by omega)
    by_cases ha0 : 0 < t.aboveLine
    · rw [if_pos ha0]
      refine Or.inr (Or.inl ⟨rfl, ?_, ?_, ?_, ?_, ?_⟩) <;> dsimp only
      · omega
      · omega
      · omega
      · omega
      · rw [show t.aboveLine - 1 + 1 = t.aboveLine by ring]
        exact hconc
    · rw [if_neg ha0]
      by_cases hb1 : t.belowLine < (t.allLines.length : Int) - 1
      · rw [if_pos hb1]
        refine Or.inr (Or.inr (Or.inl ⟨?_, ?_, ?_, ?_, ?_, ?_⟩)) <;> dsimp only
        · exact hn
        · omega
        · omega
        · omega
        · omega
        · exact hconc
      · rw [if_neg hb1]
        refine Or.inr (Or.inr (Or.inr ⟨rfl, ?_⟩))
        dsimp only
        rw [hconc, show t.aboveLine = 0 by omega,
          show t.belowLine + 1 = (t.allLines.length : Int) by omega]
        exact sliceI_all t.allLines
  · -- exhausted state: expand is the identity
    unfold FileContextTracker.expand
    rw [if_neg (by rintro ⟨h1, -⟩; exact absurd (hn.symm.trans h1) (by decide))]
    rw [if_neg (by rintro ⟨h1, -⟩; exact absurd (hn.symm.trans h1) (by decide))]
    exact Or.inr (Or.inr (Or.inr ⟨hn, hl⟩))

/-- Every reachable tracker state keeps its source lines and the slice invariant. -/
theorem reachable_inv {file : FileToInclude}
    (hf0 : 0 ≤ FileContextTracker.focusOf file)
    (hflen : FileContextTracker.focusOf file < ((jsSplitLines file.content).length : Int)) :
    ∀ {t : FileContextTracker}, Reachable file t →
      t.allLines = jsSplitLines file.content ∧
      TrackerInv (FileContextTracker.focusOf file) t := by
  intro t h
  induction h with
  | init =>
    exact ⟨rfl, Or.inl ⟨rfl, rfl, rfl, rfl⟩⟩
  | step hr ih =>
    rename_i t'
    refine ⟨(expand_allLines t').trans ih.1, trackerInv_expand hf0 ?_ ih.2⟩
    rw [ih.1]
    exact hflen

/-- Helper: when `nextLine` is defined, the immediately following `expand` adds
exactly that line (without its trailing newline), at the front or at the back. -/
theorem nextLine_expand_adds {t : FileContextTracker} {s : String}
    (h : t.nextLine = some s) :
    ∃ line, s = line ++ "\n" ∧
      ((t.expand).lines = line :: t.lines ∨ (t.expand).lines = t.lines ++ [line]) ∧
      (t.expand).lines.length = t.lines.length + 1 := by
  rcases ht : t.nextLineIs with _ | _ | _
  · have ha : 0 ≤ t.aboveLine := by
      by_contra ha
      simp [FileContextTracker.nextLine, ht, ha] at h
    have hs : s = getLine t.allLines t.aboveLine ++ "\n" := by
      have := h
      simp only [FileContextTracker.nextLine, ht, if_pos ha, Option.some.injEq] at this
      exact this.symm
    refine ⟨getLine t.allLines t.aboveLine, hs, ?_⟩
    unfold FileContextTracker.expand
    rw [if_pos ⟨ht, ha⟩]
    split_ifs <;> exact ⟨Or.inl rfl, by simp⟩
  · have hb : t.belowLine < (t.allLines.length : Int) := by
      by_contra hb
      simp [FileContextTracker.nextLine, ht, hb] at h
    have hs : s = getLine t.allLines t.belowLine ++ "\n" := by
      have := h
      simp only [FileContextTracker.nextLine, ht, if_pos hb, Option.some.injEq] at this
      exact this.symm
    refine ⟨getLine t.allLines t.belowLine, hs, ?_⟩
    unfold FileContextTracker.expand
    rw [if_neg (by rintro ⟨h1, -⟩; exact absurd (ht.symm.trans h1) (by decide))]
    rw [if_pos ⟨ht, hb⟩]
    split_ifs <;> exact ⟨Or.inr rfl, by simp⟩
  · simp [FileContextTracker.nextLine, ht] at h

/-- Helper: when `nextLine` is `undefined`, `expand` changes nothing at all. -/
theorem nextLine_none_expand {t : FileContextTracker}
    (h : t.nextLine = Option.none) : t.expand = t := by
  rcases ht : t.nextLineIs with _ | _ | _
  · have ha : ¬ 0 ≤ t.aboveLine := by
      intro ha
      simp [FileContextTracker.nextLine, ht, ha] at h
    unfold FileContextTracker.expand
    rw [if_neg (by rintro ⟨-, h2⟩; exact ha h2)]
    rw [if_neg (by rintro ⟨h1, -⟩; exact absurd (ht.symm.trans h1) (by decide))]
  · have hb : ¬ t.belowLine < (t.allLines.length : Int) := by
      intro hb
      simp [FileContextTracker.nextLine, ht, hb] at h
    unfold FileContextTracker.expand
    rw [if_neg (by rintro ⟨h1, -⟩; exact absurd (ht.symm.trans h1) (by decide))]
    rw [if_neg (by rintro ⟨-, h2⟩; exact hb h2)]
  · unfold FileContextTracker.expand
    rw [if_neg (by rintro ⟨h1, -⟩; exact absurd (ht.symm.trans h1) (by decide))]
    rw [if_neg (by rintro ⟨h1, -⟩; exact absurd (ht.symm.trans h1) (by decide))]

/-- C9 counterexample: with an out-of-range focus line (`focusLine = 1` on the
one-line file `"a"`), the first `expand` accumulates the string `"undefined"`
(JavaScript out-of-bounds indexing coerced to a string), which is not among the
file's original lines — so the accumulated lines are not a slice of them. -/
theorem claim9_counterexample :
    (FileContextTracker.expand (FileContextTracker.make ⟨"f", "a", some 1⟩)).lines =
      ["undefined"] ∧
    (FileContextTracker.expand (FileContextTracker.make ⟨"f", "a", some 1⟩)).allLines =
      ["a"] ∧
    Reachable ⟨"f", "a", some 1⟩
      (FileContextTracker.expand (FileContextTracker.make ⟨"f", "a", some 1⟩)) ∧
    ¬ (∀ l ∈ (FileContextTracker.expand (FileContextTracker.make ⟨"f", "a", some 1⟩)).lines,
        l ∈ (FileContextTracker.expand (FileContextTracker.make ⟨"f", "a", some 1⟩)).allLines) :=
  ⟨by decide, by decide, Reachable.step Reachable.init, by decide⟩

/-- C9 (amended): provided the tracker's focus line is a valid index of the file's
lines (always true for the defaulted focus), every reachable state's accumulated
lines are a contiguous slice of the original lines that, once non-empty, contains
the focus line (and, being a slice that grows by exactly one fresh line per
expansion, never contains a source line twice); whenever `nextLine()` returns a
defined line, the immediately following `expand()` adds exactly that line (at the
front or back, one line longer), and when it returns `undefined`, `expand()`
changes nothing. -/
theorem claim9_tracker_invariants (file : FileToInclude)
    (hf0 : 0 ≤ FileContextTracker.focusOf file)
    (hflen : FileContextTracker.focusOf file < ((jsSplitLines file.content).length : Int)) :
    ∀ t : FileContextTracker, Reachable file t →
      (∃ lo hi : Int, 0 ≤ lo ∧ hi ≤ (t.allLines.length : Int) ∧
        t.lines = sliceI t.allLines lo hi ∧
        (t.lines ≠ [] → lo ≤ FileContextTracker.focusOf file ∧
          FileContextTracker.focusOf file < hi)) ∧
      (∀ s, t.nextLine = some s → ∃ line, s = line ++ "\n" ∧
        ((t.expand).lines = line :: t.lines ∨ (t.expand).lines = t.lines ++ [line]) ∧
        (t.expand).lines.length = t.lines.length + 1) ∧
      (t.nextLine = Option.none → t.expand = t) := by
  intro t hr
  refine ⟨?_, fun s hs => nextLine_expand_adds hs, fun hn => nextLine_none_expand hn⟩
  obtain ⟨hall, hinv⟩ := reachable_inv hf0 hflen hr
  rcases hinv with ⟨hn, hl, ha, hb⟩ | ⟨hn, h0, haf, hfb, hblen, hl⟩ |
    ⟨hn, h0, haf, hfb, hblen, hl⟩ | ⟨hn, hl⟩
  · refine ⟨FileContextTracker.focusOf file, FileContextTracker.focusOf file,
      hf0, by rw [hall]; omega, ?_, fun hne => absurd hl hne⟩
    rw [hl, sliceI_empty t.allLines le_rfl]
  · exact ⟨t.aboveLine + 1, t.belowLine + 1, by omega, by omega, hl,
      fun _ => ⟨by omega, by omega⟩⟩
  · exact ⟨t.aboveLine, t.belowLine, h0, by omega, hl, fun _ => ⟨haf, hfb⟩⟩
  · refine ⟨0, (t.allLines.length : Int), le_rfl, le_rfl, ?_,
      fun _ => ⟨hf0, by rw [hall]; exact hflen⟩⟩
    rw [hl, sliceI_all t.allLines]

/-- C9 witness: the concrete three-line file with focus line 1 (a valid index);
the state after one expansion is reachable and the theorem applies to it. -/
theorem claim9_tracker_invariants_witness :
    ((0 : Int) ≤ FileContextTracker.focusOf ⟨"f", "l0\nl1\nl2", some 1⟩ ∧
     FileContextTracker.focusOf ⟨"f", "l0\nl1\nl2", some 1⟩ <
       ((jsSplitLines "l0\nl1\nl2").length : Int)) ∧
    (∃ lo hi : Int, 0 ≤ lo ∧
      hi ≤ (((FileContextTracker.make ⟨"f", "l0\nl1\nl2", some 1⟩).expand).allLines.length : Int) ∧
      ((FileContextTracker.make ⟨"f", "l0\nl1\nl2", some 1⟩).expand).lines =
        sliceI ((FileContextTracker.make ⟨"f", "l0\nl1\nl2", some 1⟩).expand).allLines lo hi ∧
      (((FileContextTracker.make ⟨"f", "l0\nl1\nl2", some 1⟩).expand).lines ≠ [] →
        lo ≤ FileContextTracker.focusOf ⟨"f", "l0\nl1\nl2", some 1⟩ ∧
        FileContextTracker.focusOf ⟨"f", "l0\nl1\nl2", some 1⟩ < hi)) :=
  ⟨⟨by decide, by decide⟩,
   (claim9_tracker_invariants ⟨"f", "l0\nl1\nl2", some 1⟩ (by decide) (by decide)
     ((FileContextTracker.make ⟨"f", "l0\nl1\nl2", some 1⟩).expand)
     (Reachable.step Reachable.init)).1⟩

/-! ### C7: the `SimpleTokenizer.tokenLength` formula

The claim describes the result as `max(w, ceil(c / 4))` where `w` is the number of
whitespace-separated words of the trimmed text. The code computes
`text.trim().split(/\s+/).length` instead, which differs from `w` only on
whitespace-only text (where `split` yields `[""]`, length 1, while `w = 0`) — and
there `ceil(c / 4) ≥ 1` wins the `max` either way. -/

/-- Whether a character list ends in a whitespace character. -/
def endsWs : List Char → Bool
  | [] => false
  | [c] => isWs c
  | _ :: c :: rest => endsWs (c :: rest)

mutual
/-- Number of maximal runs of non-whitespace characters, scanning outside a run. -/
def cw : List Char → Nat
  | [] => 0
  | c :: rest => if isWs c then cw rest else 1 + cwIn rest

/-- Number of further maximal non-whitespace runs, scanning inside a run. -/
def cwIn : List Char → Nat
  | [] => 0
  | c :: rest => if isWs c then cw rest else cwIn rest
end

/-- The number of tokens the claim ascribes to a content part: `0` for non-text
parts and empty text, else `max(w, ceil(c / 4))` with `w` the number of
whitespace-separated words of the trimmed text and `c` the character length.
Stated from the claim's words, to be compared with the code's `tokenLength`. -/
def specTokenLength (p : Raw.ChatCompletionContentPart) : Nat :=
  match p with
  | .nonText => 0
  | .text s =>
    if s.data = [] then 0
    else max (cw (jsTrim s.data)) ((s.data.length + 3) / 4)

/-- Relating the `split(/\s+/)` piece count to the word count, for inputs without
trailing whitespace (joint induction over the two splitting states). -/
theorem splitWs_length_eq_cw (l : List Char) :
    (endsWs l = false → ∀ cur, (splitWsGo cur l).length = 1 + cwIn l) ∧
    (l ≠ [] → endsWs l = false → (splitWsSkip l).length = cw l) := by
  induction l with
  | nil =>
    refine ⟨fun _ cur => ?_, fun h _ => absurd rfl h⟩
    simp [splitWsGo, cwIn]
  | cons c rest ih =>
    have hends : rest ≠ [] → endsWs (c :: rest) = endsWs rest := by
      intro hne
      cases rest with
      | nil => exact absurd rfl hne
      | cons d ds => rfl
    constructor
    · intro hend cur
      by_cases hws : isWs c
      · have hne : rest ≠ [] := by
          intro he
          subst he
          simp [endsWs, hws] at hend
        rw [splitWsGo, if_pos hws]
        simp only [List.length_cons]
        rw [ih.2 hne ((hends hne) ▸ hend)]
        rw [cwIn, if_pos hws]
        omega
      · rw [splitWsGo, if_neg hws]
        have hrend : endsWs rest = false := by
          cases rest with
          | nil => rfl
          | cons d ds => rw [← hends (by simp)]; exact hend
        rw [ih.1 hrend (c :: cur)]
        rw [cwIn, if_neg hws]
    · intro hne hend
      by_cases hws : isWs c
      · have hne2 : rest ≠ [] := by
          intro he
          subst he
          simp [endsWs, hws] at hend
        rw [splitWsSkip, if_pos hws]
        rw [ih.2 hne2 ((hends hne2) ▸ hend)]
        rw [cw, if_pos hws]
      · rw [splitWsSkip, if_neg hws]
        have hrend : endsWs rest = false := by
          cases rest with
          | nil => rfl
          | cons d ds => rw [← hends (by simp)]; exact hend
        rw [ih.1 hrend [c]]
        rw [cw, if_neg hws]

/-- A list with an element appended ends in whitespace exactly when that element
is whitespace. -/
theorem endsWs_append_singleton (xs : List Char) (c : Char) :
    endsWs (xs ++ [c]) = isWs c := by
  induction xs with
  | nil => rfl
  | cons x xs ih =>
    cases xs with
    | nil => rfl
    | cons y ys => simpa [endsWs] using ih

/-- `dropWhile` either empties the list or exposes a head failing the predicate. -/
theorem dropWhile_head_not (p : Char → Bool) (l : List Char) :
    l.dropWhile p = [] ∨ ∃ c r, l.dropWhile p = c :: r ∧ p c = false := by
  induction l with
  | nil => exact Or.inl rfl
  | cons c rest ih =>
    by_cases hc : p c
    · rw [List.dropWhile_cons_of_pos hc]
      exact ih
    · rw [List.dropWhile_cons_of_neg hc]
      exact Or.inr ⟨c, rest, rfl, by simpa using hc⟩

/-- `dropWhile` drops a prefix: some dropped part concatenates back to the list. -/
theorem dropWhile_is_dropped (p : Char → Bool) (l : List Char) :
    ∃ s, s ++ l.dropWhile p = l := by
  induction l with
  | nil => exact ⟨[], rfl⟩
  | cons c rest ih =>
    by_cases hc : p c
    · rw [List.dropWhile_cons_of_pos hc]
      obtain ⟨s, hs⟩ := ih
      exact ⟨c :: s, by simp [hs]⟩
    · rw [List.dropWhile_cons_of_neg hc]
      exact ⟨[], rfl⟩

/-- The trimmed text does not end in whitespace. -/
theorem endsWs_jsTrim (l : List Char) : endsWs (jsTrim l) = false := by
  unfold jsTrim
  rcases dropWhile_head_not isWs ((l.dropWhile isWs).reverse) with hnil | ⟨c, r, hcr, hc⟩
  · rw [hnil]
    rfl
  · rw [hcr]
    simpa [endsWs_append_singleton] using hc

/-- The trimmed text does not start with whitespace. -/
theorem head_jsTrim_not_ws {l : List Char} {x : Char} {r : List Char}
    (h : jsTrim l = x :: r) : isWs x = false := by
  unfold jsTrim at h
  obtain ⟨s, hs⟩ := dropWhile_is_dropped isWs ((l.dropWhile isWs).reverse)
  have hq : l.dropWhile isWs =
      ((l.dropWhile isWs).reverse.dropWhile isWs).reverse ++ s.reverse := by
    have := congrArg List.reverse hs
    simpa using this.symm
  rw [h] at hq
  rcases dropWhile_head_not isWs l with hnil | ⟨c, rr, hcr, hc⟩
  · rw [hnil] at hq
    exact absurd hq.symm (by simp)
  · rw [hcr] at hq
    have : c = x := by
      have := congrArg (fun t => t.head?) hq
      simpa using this
    rw [← this]
    exact hc

/-- The code's estimate agrees with the claim's formula on every string. -/
theorem estimateTokenCount_eq_spec (s : String) :
    estimateTokenCount s = specTokenLength (Raw.ChatCompletionContentPart.text s) := by
  unfold estimateTokenCount specTokenLength
  dsimp only
  by_cases hempty : s.data = []
  · rw [if_pos hempty, if_pos hempty]
  · rw [if_neg hempty, if_neg hempty]
    have hceil : 1 ≤ (s.data.length + 3) / 4 := by
      have : s.data.length ≠ 0 := fun h => hempty (List.length_eq_zero.mp h)
      omega
    rcases htrim : jsTrim s.data with _ | ⟨c, r⟩
    · rw [jsSplitWs]
      rw [show (splitWsGo [] ([] : List Char)).length = 1 from rfl,
        show cw ([] : List Char) = 0 from rfl]
      omega
    · have hend : endsWs (c :: r) = false := htrim ▸ endsWs_jsTrim s.data
      have hhead : isWs c = false := head_jsTrim_not_ws htrim
      have hgo := (splitWs_length_eq_cw (c :: r)).1 hend []
      have hcw : cw (c :: r) = 1 + cwIn r := by
        rw [cw, if_neg (by simp [hhead])]
      have hcwIn : cwIn (c :: r) = cwIn r := by
        rw [cwIn, if_neg (by simp [hhead])]
      rw [jsSplitWs, hgo, hcwIn, hcw]

/-- C7: `SimpleTokenizer.tokenLength(p)` is 0 for non-text parts and empty text,
and otherwise `max(w, ceil(c / 4))` with `w` the whitespace-separated word count
of the trimmed text and `c` the character length — hence at least 1 for every
non-empty text (the result is a natural number, so it is always nonnegative). -/
theorem claim7_tokenLength_formula :
    ∀ (t : SimpleTokenizer) (p : Raw.ChatCompletionContentPart),
      (t.tokenLength p).1 = specTokenLength p ∧
      (∀ s, p = Raw.ChatCompletionContentPart.text s → s.data ≠ [] →
        1 ≤ (t.tokenLength p).1) := by
  intro t p
  constructor
  · cases p with
    | text s => exact estimateTokenCount_eq_spec s
    | nonText => rfl
  · intro s hp hne
    subst hp
    have := estimateTokenCount_eq_spec s
    have h1 : (t.tokenLength (Raw.ChatCompletionContentPart.text s)).1 =
        estimateTokenCount s := rfl
    rw [h1, this]
    unfold specTokenLength
    dsimp only
    rw [if_neg hne]
    have : s.data.length ≠ 0 := fun h => hne (List.length_eq_zero.mp h)
    have hceil : 1 ≤ (s.data.length + 3) / 4 := by omega
    omega

/-- C7 witness: on the concrete part `"Hello world"` the code's result equals the
claim's formula and is at least 1. -/
theorem claim7_tokenLength_formula_witness :
    ((SimpleTokenizer.make.tokenLength (Raw.ChatCompletionContentPart.text "Hello world")).1 =
      specTokenLength (Raw.ChatCompletionContentPart.text "Hello world")) ∧
    (specTokenLength (Raw.ChatCompletionContentPart.text "Hello world") = 3) ∧
    1 ≤ (SimpleTokenizer.make.tokenLength
          (Raw.ChatCompletionContentPart.text "Hello world")).1 :=
  ⟨(claim7_tokenLength_formula SimpleTokenizer.make
      (Raw.ChatCompletionContentPart.text "Hello world")).1,
   by decide,
   (claim7_tokenLength_formula SimpleTokenizer.make
      (Raw.ChatCompletionContentPart.text "Hello world")).2 "Hello world" rfl (by decide)⟩

/-! ### C1: the render entry point respects the budget -/

/-- The greedy pruner never accepts more total cost than its budget. -/
theorem sum_greedyAccept_le (budget : Nat) (l : List Piece) :
    ((greedyAccept budget l).map Piece.cost).sum ≤ budget := by
  induction l generalizing budget with
  | nil => simp [greedyAccept]
  | cons p rest ih =>
    rw [greedyAccept]
    by_cases hc : p.cost ≤ budget
    · rw [if_pos hc]
      have := ih (budget - p.cost)
      simp only [List.map_cons, List.sum_cons]
      omega
    · rw [if_neg hc]
      simp

/-- C1: every successful `renderPrompt` call with a positive budget returns a
result whose `tokenCount` is at most the budget (the pruner greedily accepts
priority-sorted units only while they fit). -/
theorem claim1_renderPrompt_budget (tree : List ElementMsg) (B : Int)
    (ct : String → Nat) (res : RenderResult) (hB : 0 < B)
    (h : renderPrompt tree B ct = .ok res) : (res.tokenCount : Int) ≤ B := by
  unfold renderPrompt at h
  rw [if_neg (by omega)] at h
  injection h with h
  rw [← h]
  unfold flatten
  dsimp only
  have := sum_greedyAccept_le B.toNat (sortByPriority (evaluate ct tree))
  omega

/-- C1 witness: a concrete two-message tree rendered against budget 1000 succeeds
with a token count within the budget. -/
theorem claim1_renderPrompt_budget_witness :
    (0 : Int) < 1000 ∧
    ∃ res, renderPrompt
        [⟨LanguageModelChatMessageRole.System, 100, "sys"⟩,
         ⟨LanguageModelChatMessageRole.User, 90, "hello"⟩] 1000 String.length = .ok res ∧
      (res.tokenCount : Int) ≤ 1000 :=
  ⟨by decide, _, rfl,
   claim1_renderPrompt_budget
     [⟨LanguageModelChatMessageRole.System, 100, "sys"⟩,
      ⟨LanguageModelChatMessageRole.User, 90, "hello"⟩] 1000 String.length _
     (by decide) rfl⟩

end PromptTsx
